import Mathlib

/-!
Verification of the region-replace scripts of the pawnsposes repository.

The four Python scripts (`add_pawnsposes_ai.py`, `check_parser.py`,
`fix_parser.py`, `update_training_section.py`) are shallowly embedded over
`List Char`.  A document is the list of characters of the target file; the
CPython string primitives the scripts use (`str.find`, `str.replace`, the
`in` operator, slicing) are modelled below, and the driver logic of each script
(branching on whether the region was located, and the exact new document
written back on success) is translated directly from its source.
-/

set_option maxRecDepth 40000

/-! ## String primitives -/

/-- A needle `pat` occurs in document `D` at character offset `i`. -/
def occursAt (D pat : List Char) (i : Nat) : Prop := pat.isPrefixOf (D.drop i) = true

instance instDecOccursAt (D pat : List Char) (i : Nat) : Decidable (occursAt D pat i) :=
  inferInstanceAs (Decidable (pat.isPrefixOf (D.drop i) = true))

/-- First occurrence of `pat` in `s`, if any: the scanning core of CPython
`str.find`. -/
def subFind (pat : List Char) : List Char → Option Nat
  | [] => if pat.isPrefixOf ([] : List Char) then some 0 else none
  | c :: t => if pat.isPrefixOf (c :: t) then some 0 else (subFind pat t).map (· + 1)

/-- CPython slice-start normalisation for `str.find(sub, start)`: a negative
`start` counts from the end of the string and is clamped at `0`. -/
def pyStart (content : List Char) (start : Int) : Nat :=
  (if start < 0 then (content.length : Int) + start else start).toNat

/-- CPython `str.find(sub, start)` over `List Char`: the least occurrence
offset at or after the normalised start, or `-1`.  (the CPython behaviour for an
empty needle past the end of the string is not modelled; every needle the
scripts pass is non-empty.) -/
def pyFindFrom (content pat : List Char) (start : Int) : Int :=
  match subFind pat (content.drop (pyStart content start)) with
  | some k => ((pyStart content start + k : Nat) : Int)
  | none => -1

/-- CPython `str.find(sub)`: first occurrence offset, or `-1`. -/
def pyFind (content pat : List Char) : Int := pyFindFrom content pat 0

/-- CPython `sub in str`: substring containment. -/
def pyContains (content pat : List Char) : Bool := (subFind pat content).isSome

/-- CPython `str.replace(old, new)` for a non-empty `old`: every
(left-to-right, non-overlapping) occurrence of `old` is replaced by `new`.
The scan consumes at least one character per step, so `content.length` steps
of fuel always suffice. -/
def pyReplaceFuel : Nat → List Char → List Char → List Char → List Char
  | 0, s, _, _ => s
  | fuel + 1, s, old, new =>
    if old.isPrefixOf s then new ++ pyReplaceFuel fuel (s.drop old.length) old new
    else
      match s with
      | [] => []
      | c :: t => c :: pyReplaceFuel fuel t old new

def pyReplace (s old new : List Char) : List Char := pyReplaceFuel s.length s old new

/-- Number of offsets at which `pat` occurs in `D`. -/
def countOcc (D pat : List Char) : Nat :=
  ((List.range (D.length + 1)).filter (fun i => pat.isPrefixOf (D.drop i))).length

/-! ## add_pawnsposes_ai.py

If the literal `export default Reports;` occurs in the document, line 290
replaces every occurrence (CPython `str.replace`) by the fixed code block
`new_code` followed by `'\n'` and the anchor itself, and the result is written
back; otherwise the script prints a not-found message and performs no write.
The content of `new_code` (an opaque JavaScript payload, outside the
scope of the specification) is kept as the parameter `payload`. -/

def exportAnchor : List Char := "export default Reports;".data

/-- Line 290: `content.replace` applied to the anchor, with the replacement
string `new_code` followed by a newline and the anchor itself. -/
def addNewContent (content payload : List Char) : List Char :=
  pyReplace content exportAnchor (payload ++ '\n' :: exportAnchor)

/-- Driver of `add_pawnsposes_ai.py` (lines 288-299): the file written back
(if any) together with whether the success message was printed. -/
def addRun (content payload : List Char) : Option (List Char) × Bool :=
  if pyContains content exportAnchor then (some (addNewContent content payload), true)
  else (none, false)

/-- The target file after a driver run: an unwritten file keeps its original
content. -/
def finalFile (orig : List Char) (w : Option (List Char)) : List Char := w.getD orig

/-! ## update_training_section.py -/

/-- Line 13 of `update_training_section.py`. -/
def startMarker : List Char :=
  "          <div className=\"dashboard-panel\">\n            <h3>Start Your Training</h3>".data

/-- Line 14 of `update_training_section.py` (braces written `\x7b`/`\x7d`). -/
def endMarker : List Char :=
  "          </div>\n        </div>\n\n        \x7b/* Back to Reports Button */\x7d".data

/-- The literal appended after the replacement on line 21 of
`update_training_section.py`. -/
def trailingLit : List Char :=
  "\n        </div>\n\n        \x7b/* Back to Reports Button */\x7d".data

/-- Driver of `update_training_section.py` (lines 16-35): `start_idx =
content.find(start_marker)`, `end_idx = content.find(end_marker, start_idx)`,
and on `start_idx != -1 and end_idx != -1` the written content is
`content[:start_idx] + replacement + trailing-literal +
content[end_idx + len(end_marker):]`. -/
def updateRun (content replacement : List Char) : Option (List Char) × Bool :=
  if pyFind content startMarker ≠ -1 ∧
      pyFindFrom content endMarker (pyFind content startMarker) ≠ -1 then
    (some (content.take (pyFind content startMarker).toNat ++ replacement ++ trailingLit ++
      content.drop ((pyFindFrom content endMarker (pyFind content startMarker)).toNat +
        endMarker.length)), true)
  else (none, false)

/-! ## fix_parser.py

The regex of line 12 is the fixed pattern

  `// ✅ Helper: Parse weaknesses from unified response\s*\n`
  `const parseWeaknessesFromUnified = (weaknessesText) => \x7b[\s\S]*?`
  `return weaknesses;\s*\n};`

Its matching semantics under CPython `re` specialise as follows: each `\s*\n`
is followed by a literal whose first character is not whitespace, so the `\n`
must be the last character of the maximal whitespace run; the lazy `[\s\S]*?`
makes the match end at the earliest position where the fixed tail matches;
`re.search` takes the leftmost matching start position. -/

/-- Python `\s` on ASCII characters (non-ASCII whitespace code points play no
role for the markers and documents of these scripts). -/
def isPySpace (c : Char) : Bool :=
  c = ' ' || c = '\t' || c = '\n' || c = '\x0b' || c = '\x0c' || c = '\r'

def fixLit1 : List Char := "// ✅ Helper: Parse weaknesses from unified response".data

def fixLit2 : List Char := "const parseWeaknessesFromUnified = (weaknessesText) => \x7b".data

def fixLit3 : List Char := "return weaknesses;".data

def braceSemi : List Char := "\x7d;".data

/-- Line 33: the fallback needle `const parseWeaknessesFromUnified`. -/
def fixSimple : List Char := "const parseWeaknessesFromUnified".data

/-- Matches `\s*\n` when (as in these patterns) the next pattern element
starts with a non-space character. -/
def spacesNewline (s : List Char) : Option (List Char) :=
  if (s.takeWhile isPySpace).getLast? = some '\n' then some (s.dropWhile isPySpace)
  else none

def consumeLit (lit s : List Char) : Option (List Char) :=
  if lit.isPrefixOf s then some (s.drop lit.length) else none

/-- The fixed tail `return weaknesses;\s*\n};` of the pattern. -/
def fixSeg (s : List Char) : Option (List Char) :=
  (consumeLit fixLit3 s).bind fun r =>
    (spacesNewline r).bind fun r2 => consumeLit braceSemi r2

/-- The lazy `[\s\S]*?` before the tail: the earliest tail match wins. -/
def fixLazy : List Char → Option (List Char)
  | [] => fixSeg []
  | c :: t =>
    match fixSeg (c :: t) with
    | some r => some r
    | none => fixLazy t

/-- The whole pattern anchored at the head of `s`; returns the rest of the
document after the match end. -/
def fixMatchAt (s : List Char) : Option (List Char) :=
  (consumeLit fixLit1 s).bind fun r1 =>
    (spacesNewline r1).bind fun r2 =>
      (consumeLit fixLit2 r2).bind fixLazy

/-- `re.search`: leftmost match; returns the match start offset and the rest
of the document after the match end. -/
def fixSearch : List Char → Option (Nat × List Char)
  | [] => (fixMatchAt []).map fun r => (0, r)
  | c :: t =>
    match fixMatchAt (c :: t) with
    | some r => some (0, r)
    | none => (fixSearch t).map fun p => (p.1 + 1, p.2)

inductive FixMsg where
  | replaced
  | foundDeclOnly
  | notFoundAtAll
deriving DecidableEq

/-- Driver of `fix_parser.py` (lines 14-37): the written file (if any,
line 21: `content[:match.start()] + new_function + content[match.end():]`)
and the final message printed. -/
def fixRun (content newFunction : List Char) : Option (List Char) × FixMsg :=
  match fixSearch content with
  | some (s, rest) => (some (content.take s ++ newFunction ++ rest), FixMsg.replaced)
  | none =>
    (none, if pyContains content fixSimple then FixMsg.foundDeclOnly
      else FixMsg.notFoundAtAll)

/-! ## check_parser.py

Pattern of line 8, applied with `re.MULTILINE`:
`const parseUnifiedGeminiResponse = \(analysisText, gamesData, formData\) =>`
`\x7b[\s\S]*?^};` — the `^};` matches a `};` that immediately follows a
newline (the candidate positions all lie after the initial literal, so the
start-of-string case of `^` cannot arise). -/

def checkLit : List Char :=
  "const parseUnifiedGeminiResponse = (analysisText, gamesData, formData) => \x7b".data

/-- The lazy `[\s\S]*?^};` tail: scan for the earliest `};` that follows a
newline; `prev` is the character just before the current position. -/
def checkLazy (prev : Char) : List Char → Option (List Char)
  | [] => none
  | c :: t =>
    if prev = '\n' ∧ braceSemi.isPrefixOf (c :: t) then
      some ((c :: t).drop braceSemi.length)
    else checkLazy c t

/-- The pattern anchored at the head of `s`; the first position scanned for
`^};` is preceded by the final `\x7b` of the literal. -/
def checkMatchAt (s : List Char) : Option (List Char) :=
  (consumeLit checkLit s).bind (checkLazy '\x7b')

def checkSearch : List Char → Option (Nat × List Char)
  | [] => (checkMatchAt []).map fun r => (0, r)
  | c :: t =>
    match checkMatchAt (c :: t) with
    | some r => some (0, r)
    | none => (checkSearch t).map fun p => (p.1 + 1, p.2)

/-- Driver of `check_parser.py`: locate and print only; the script contains
no write call, so the written file is always `none`. -/
def checkRun (content : List Char) : Option (Nat × List Char) × Option (List Char) :=
  (checkSearch content, none)

/-! ## Concrete documents used as test inputs -/

/-- A document containing the export anchor twice. -/
def twiceDoc : List Char := exportAnchor ++ "AA".data ++ exportAnchor

/-- A document containing the export anchor exactly once, at offset 4. -/
def uniqueDoc : List Char := "abc ".data ++ exportAnchor ++ " xyz".data

/-- A document containing the bracket markers: the start marker at offset 1,
the end marker at offset 88. -/
def bracketDoc : List Char := "A".data ++ startMarker ++ "MID".data ++ endMarker ++ "Z".data

/-- A document containing none of the needles or patterns of the scripts. -/
def missDoc : List Char := "hello".data

/-! ## Lemmas about the primitives -/

/-- `List.isPrefixOf` decides the existence of a decomposition. -/
theorem isPrefixOf_iff_ex (pat s : List Char) :
    pat.isPrefixOf s = true ↔ ∃ t, s = pat ++ t := by
  induction pat generalizing s with
  | nil => simp [List.isPrefixOf]
  | cons a as ih =>
    cases s with
    | nil => simp [List.isPrefixOf]
    | cons b bs =>
      simp only [List.isPrefixOf, Bool.and_eq_true, beq_iff_eq, ih, List.cons_append]
      constructor
      · rintro ⟨rfl, t, rfl⟩; exact ⟨t, rfl⟩
      · rintro ⟨t, ht⟩
        injection ht with h1 h2
        exact ⟨h1.symm, t, h2⟩

theorem occursAt_ex {D pat : List Char} {i : Nat} :
    occursAt D pat i ↔ ∃ t, D.drop i = pat ++ t :=
  isPrefixOf_iff_ex pat (D.drop i)

/-- An occurrence of a non-empty needle lies inside the document. -/
theorem occursAt_len {D pat : List Char} {i : Nat} (hne : pat ≠ [])
    (h : occursAt D pat i) : i + pat.length ≤ D.length := by
  obtain ⟨t, ht⟩ := occursAt_ex.mp h
  have hlen := congrArg List.length ht
  rw [List.length_drop, List.length_append] at hlen
  have hp : 0 < pat.length := List.length_pos.mpr hne
  omega

theorem occursAt_cons {c : Char} {t pat : List Char} {j : Nat} :
    occursAt (c :: t) pat (j + 1) ↔ occursAt t pat j := Iff.rfl

theorem occursAt_drop {D pat : List Char} {a j : Nat} :
    occursAt (D.drop a) pat j ↔ occursAt D pat (a + j) := by
  unfold occursAt
  rw [List.drop_drop]

theorem occursAt_append_left {X Y pat : List Char} {j : Nat}
    (h : occursAt X pat j) : occursAt (X ++ Y) pat j := by
  obtain ⟨t, ht⟩ := occursAt_ex.mp h
  exact occursAt_ex.mpr ⟨t ++ Y.drop (j - X.length), by
    rw [List.drop_append_eq_append_drop, ht, List.append_assoc]⟩

theorem occursAt_append_right_iff {X Y pat : List Char} {j : Nat} :
    occursAt (X ++ Y) pat (X.length + j) ↔ occursAt Y pat j := by
  have hdrop : (X ++ Y).drop (X.length + j) = Y.drop j := by
    rw [List.drop_append_eq_append_drop, List.drop_eq_nil_of_le (Nat.le_add_right _ _),
      Nat.add_sub_cancel_left, List.nil_append]
  unfold occursAt
  rw [hdrop]

/-- An occurrence that fits entirely inside the left part of an append is an
occurrence in that left part. -/
theorem occursAt_append_inner {X Y pat : List Char} {j : Nat}
    (hj : j + pat.length ≤ X.length) (h : occursAt (X ++ Y) pat j) :
    occursAt X pat j := by
  obtain ⟨t, ht⟩ := occursAt_ex.mp h
  rw [List.drop_append_eq_append_drop] at ht
  have hlen : pat.length ≤ (X.drop j).length := by
    rw [List.length_drop]; omega
  have hpat : (X.drop j).take pat.length = pat := by
    have h2 := congrArg (List.take pat.length) ht
    rw [List.take_append_eq_append_take, List.take_append_eq_append_take,
      Nat.sub_eq_zero_of_le hlen, Nat.sub_self, List.take_zero, List.take_zero,
      List.append_nil, List.append_nil, List.take_of_length_le (Nat.le_refl _)] at h2
    exact h2
  refine occursAt_ex.mpr ⟨(X.drop j).drop pat.length, ?_⟩
  nth_rewrite 1 [← List.take_append_drop pat.length (X.drop j)]
  rw [hpat]

/-- Characters of an occurrence agree with the needle. -/
theorem occursAt_char {X pat : List Char} {j k : Nat} (h : occursAt X pat j)
    (hk : k < pat.length) : X[j + k]? = pat[k]? := by
  obtain ⟨t, ht⟩ := occursAt_ex.mp h
  rw [← List.getElem?_drop, ht, List.getElem?_append_left hk]

/-- A needle longer than the document occurs nowhere. -/
theorem no_occ_of_longer {s pat : List Char} (h : s.length < pat.length) :
    ∀ j, ¬ occursAt s pat j := by
  intro j hj
  obtain ⟨t, ht⟩ := occursAt_ex.mp hj
  have := congrArg List.length ht
  rw [List.length_drop, List.length_append] at this
  omega

theorem subFind_some_occ {pat s : List Char} {i : Nat} (h : subFind pat s = some i) :
    pat.isPrefixOf (s.drop i) = true := by
  induction s generalizing i with
  | nil =>
    unfold subFind at h
    split at h
    · cases h; simpa using ‹pat.isPrefixOf ([] : List Char) = true›
    · cases h
  | cons c t ih =>
    unfold subFind at h
    split at h
    · cases h; simpa using ‹pat.isPrefixOf (c :: t) = true›
    · obtain ⟨i', hi', rfl⟩ := Option.map_eq_some'.mp h
      simpa using ih hi'

theorem subFind_some_min {pat s : List Char} {i : Nat} (h : subFind pat s = some i) :
    ∀ j < i, pat.isPrefixOf (s.drop j) = false := by
  induction s generalizing i with
  | nil =>
    unfold subFind at h
    split at h
    · cases h; omega
    · cases h
  | cons c t ih =>
    unfold subFind at h
    split at h
    · cases h; omega
    · obtain ⟨i', hi', rfl⟩ := Option.map_eq_some'.mp h
      intro j hj
      cases j with
      | zero => simpa using Bool.of_not_eq_true ‹¬pat.isPrefixOf (c :: t) = true›
      | succ j' => simpa using ih hi' j' (by omega)

theorem subFind_none {pat s : List Char} (h : subFind pat s = none) :
    ∀ j, pat.isPrefixOf (s.drop j) = false := by
  induction s with
  | nil =>
    unfold subFind at h
    split at h
    · cases h
    · intro j
      have : List.drop j ([] : List Char) = [] := List.drop_nil
      rw [this]
      exact Bool.of_not_eq_true ‹¬pat.isPrefixOf ([] : List Char) = true›
  | cons c t ih =>
    unfold subFind at h
    split at h
    · cases h
    · intro j
      have ht : subFind pat t = none := by
        cases hx : subFind pat t with
        | none => rfl
        | some k => rw [hx] at h; simp at h
      cases j with
      | zero => simpa using Bool.of_not_eq_true ‹¬pat.isPrefixOf (c :: t) = true›
      | succ j' => simpa using ih ht j'

theorem subFind_eq_some {pat s : List Char} {i : Nat}
    (hocc : pat.isPrefixOf (s.drop i) = true)
    (hmin : ∀ j < i, pat.isPrefixOf (s.drop j) = false) : subFind pat s = some i := by
  induction s generalizing i with
  | nil =>
    have hi : i = 0 := by
      by_contra hne
      have := hmin 0 (by omega)
      rw [List.drop_nil] at hocc
      rw [List.drop_nil] at this
      rw [this] at hocc; cases hocc
    subst hi
    rw [List.drop_nil] at hocc
    unfold subFind
    rw [if_pos hocc]
  | cons c t ih =>
    cases i with
    | zero =>
      unfold subFind
      rw [if_pos (by simpa using hocc)]
    | succ i' =>
      have h0 : pat.isPrefixOf (c :: t) = false := by simpa using hmin 0 (by omega)
      unfold subFind
      rw [if_neg (by simp [h0])]
      have : subFind pat t = some i' := by
        apply ih
        · simpa using hocc
        · intro j hj
          simpa using hmin (j + 1) (by omega)
      rw [this]; rfl

theorem pyContains_iff {D pat : List Char} :
    pyContains D pat = true ↔ ∃ i, occursAt D pat i := by
  unfold pyContains
  constructor
  · intro h
    obtain ⟨k, hk⟩ := Option.isSome_iff_exists.mp h
    exact ⟨k, subFind_some_occ hk⟩
  · rintro ⟨i, hi⟩
    cases hx : subFind pat D with
    | some k => simp [hx]
    | none =>
      have := subFind_none hx i
      rw [show pat.isPrefixOf (D.drop i) = true from hi] at this
      cases this

/-- Adequacy of `pyFindFrom` at a non-negative start offset. -/
theorem pyFindFrom_nat_eq {D pat : List Char} {a e : Nat}
    (hocc : occursAt D pat e) (hae : a ≤ e)
    (hmin : ∀ j, a ≤ j → j < e → ¬ occursAt D pat j) :
    pyFindFrom D pat (a : Nat) = (e : Nat) := by
  unfold pyFindFrom
  have hclamp : pyStart D ((a : Nat) : Int) = a := by
    unfold pyStart
    rw [if_neg (by omega), Int.toNat_natCast]
  rw [hclamp]
  have hsub : subFind pat (D.drop a) = some (e - a) := by
    apply subFind_eq_some
    · rw [List.drop_drop]
      have : a + (e - a) = e := by omega
      rw [this]
      exact hocc
    · intro j hj
      by_contra hx
      have hx' : pat.isPrefixOf ((D.drop a).drop j) = true := by
        cases hb : pat.isPrefixOf ((D.drop a).drop j)
        · rw [hb] at hx; exact absurd rfl hx
        · rfl
      have : occursAt D pat (a + j) := occursAt_drop.mp hx'
      exact hmin (a + j) (by omega) (by omega) this
  rw [hsub]
  show ((a + (e - a) : Nat) : Int) = (e : Nat)
  congr 1
  omega

/-- Inversion of `pyFindFrom` at a non-negative start offset. -/
theorem pyFindFrom_nat_inv {D pat : List Char} {a r : Nat}
    (h : pyFindFrom D pat (a : Nat) = (r : Nat)) :
    occursAt D pat r ∧ a ≤ r ∧ ∀ j, a ≤ j → j < r → ¬ occursAt D pat j := by
  unfold pyFindFrom at h
  have hclamp : pyStart D ((a : Nat) : Int) = a := by
    unfold pyStart
    rw [if_neg (by omega), Int.toNat_natCast]
  rw [hclamp] at h
  cases hx : subFind pat (D.drop a) with
  | none => rw [hx] at h; simp at h
  | some k =>
    rw [hx] at h
    have hr : a + k = r := by
      have : ((a + k : Nat) : Int) = (r : Nat) := h
      exact_mod_cast this
    refine ⟨?_, by omega, ?_⟩
    · have := subFind_some_occ hx
      rw [List.drop_drop] at this
      rw [← hr]
      exact this
    · intro j hja hjr hj
      have hk : j - a < k := by omega
      have := subFind_some_min hx (j - a) hk
      have hocc' : pat.isPrefixOf ((D.drop a).drop (j - a)) = true := by
        rw [List.drop_drop]
        have h2 : a + (j - a) = j := by omega
        rw [h2]
        exact hj
      rw [hocc'] at this
      cases this

/-- If the needle occurs nowhere at all, `pyFindFrom` reports `-1` for every
start offset. -/
theorem pyFindFrom_none {D pat : List Char} (h : ∀ j, ¬ occursAt D pat j)
    (start : Int) : pyFindFrom D pat start = -1 := by
  unfold pyFindFrom
  cases hx : subFind pat (D.drop (pyStart D start)) with
  | none => rfl
  | some k =>
    have := subFind_some_occ hx
    rw [List.drop_drop] at this
    exact absurd this (h _)

/-- A successful find at a non-negative start offset reports an offset at or
after the start. -/
theorem pyFindFrom_ge {D pat : List Char} {start : Int} (h0 : 0 ≤ start)
    (h : pyFindFrom D pat start ≠ -1) : start ≤ pyFindFrom D pat start := by
  unfold pyFindFrom at h ⊢
  cases hx : subFind pat (D.drop (pyStart D start)) with
  | none => rw [hx] at h; exact absurd rfl h
  | some k =>
    show start ≤ ((pyStart D start + k : Nat) : Int)
    have hs : pyStart D start = start.toNat := by
      unfold pyStart
      rw [if_neg (by omega)]
    have := Int.toNat_of_nonneg h0
    omega

/-- A find result is either `-1` or a non-negative offset. -/
theorem pyFindFrom_cases (D pat : List Char) (start : Int) :
    pyFindFrom D pat start = -1 ∨ ∃ r : Nat, pyFindFrom D pat start = (r : Nat) := by
  unfold pyFindFrom
  cases hx : subFind pat (D.drop (pyStart D start)) with
  | none => exact Or.inl rfl
  | some k => exact Or.inr ⟨_, rfl⟩

theorem pyFind_eq {D pat : List Char} {e : Nat} (hocc : occursAt D pat e)
    (hmin : ∀ j < e, ¬ occursAt D pat j) : pyFind D pat = (e : Nat) := by
  show pyFindFrom D pat ((0 : Nat) : Int) = (e : Nat)
  exact pyFindFrom_nat_eq hocc (Nat.zero_le _) (fun j _ hj => hmin j hj)

theorem pyFind_inv {D pat : List Char} {r : Nat} (h : pyFind D pat = (r : Nat)) :
    occursAt D pat r ∧ ∀ j < r, ¬ occursAt D pat j := by
  have h' : pyFindFrom D pat ((0 : Nat) : Int) = (r : Nat) := h
  obtain ⟨h1, _, h3⟩ := pyFindFrom_nat_inv h'
  exact ⟨h1, fun j hj => h3 j (Nat.zero_le _) hj⟩

theorem countOcc_unique {D pat : List Char} {i : Nat} (hne : pat ≠ [])
    (hc : countOcc D pat = 1) (hi : occursAt D pat i) :
    ∀ j, occursAt D pat j → j = i := by
  intro j hj
  obtain ⟨a, ha⟩ := List.length_eq_one.mp hc
  have hmem : ∀ k, occursAt D pat k →
      k ∈ (List.range (D.length + 1)).filter (fun i => pat.isPrefixOf (D.drop i)) := by
    intro k hk
    rw [List.mem_filter, List.mem_range]
    refine ⟨?_, hk⟩
    have := occursAt_len hne hk
    have hp : 0 < pat.length := List.length_pos.mpr hne
    omega
  have h1 : i ∈ [a] := ha ▸ hmem i hi
  have h2 : j ∈ [a] := ha ▸ hmem j hj
  simp only [List.mem_singleton] at h1 h2
  omega

/-- If no occurrence exists, `pyReplace` is the identity. -/
theorem pyReplaceFuel_no_occ {old : List Char} (hne : old ≠ []) (new : List Char) :
    ∀ fuel s, s.length ≤ fuel → (∀ j, ¬ occursAt s old j) →
      pyReplaceFuel fuel s old new = s := by
  intro fuel
  induction fuel with
  | zero => intro s _ _; rfl
  | succ fuel ih =>
    intro s hlen hno
    unfold pyReplaceFuel
    have hp : old.isPrefixOf s = false := by
      cases hb : old.isPrefixOf s
      · rfl
      · exact absurd (show occursAt s old 0 from hb) (hno 0)
    rw [hp]
    simp only [Bool.false_eq_true, if_false]
    cases s with
    | nil => rfl
    | cons c t =>
      show c :: pyReplaceFuel fuel t old new = c :: t
      rw [ih t (by simpa using hlen) (fun j hj => hno (j + 1) (occursAt_cons.mpr hj))]

/-- If `old` occurs exactly at `i` and nowhere else, `pyReplace` splices `new`
over that single occurrence. -/
theorem pyReplaceFuel_unique_occ {old : List Char} (hne : old ≠ []) (new : List Char) :
    ∀ fuel s i, s.length ≤ fuel → occursAt s old i →
      (∀ j, occursAt s old j → j = i) →
      pyReplaceFuel fuel s old new = s.take i ++ new ++ s.drop (i + old.length) := by
  intro fuel
  induction fuel with
  | zero =>
    intro s i hlen hocc _
    obtain ⟨t, ht⟩ := occursAt_ex.mp hocc
    have := congrArg List.length ht
    rw [List.length_drop, List.length_append] at this
    have hp : 0 < old.length := List.length_pos.mpr hne
    omega
  | succ fuel ih =>
    intro s i hlen hocc huni
    unfold pyReplaceFuel
    cases i with
    | zero =>
      obtain ⟨t, ht⟩ := occursAt_ex.mp hocc
      rw [List.drop_zero] at ht
      have hp : old.isPrefixOf s = true := (isPrefixOf_iff_ex _ _).mpr ⟨t, ht⟩
      rw [hp, if_pos rfl]
      have hdrop : s.drop old.length = t := by
        rw [ht, List.drop_left]
      have hno : ∀ j, ¬ occursAt t old j := by
        intro j hj
        have hocc2 : occursAt s old (old.length + j) := by
          rw [ht]
          exact occursAt_append_right_iff.mpr hj
        have := huni _ hocc2
        have hp : 0 < old.length := List.length_pos.mpr hne
        omega
      rw [hdrop, pyReplaceFuel_no_occ hne new fuel t
        (by
          rw [ht] at hlen
          simp only [List.length_append] at hlen
          have := List.length_pos.mpr hne
          omega) hno]
      simp [ht, hdrop]
    | succ i' =>
      have hp : old.isPrefixOf s = false := by
        cases hb : old.isPrefixOf s
        · rfl
        · have := huni 0 (show occursAt s old 0 from hb)
          omega
      rw [hp]
      simp only [Bool.false_eq_true, if_false]
      cases s with
      | nil =>
        obtain ⟨t, ht⟩ := occursAt_ex.mp hocc
        rw [List.drop_nil] at ht
        exact absurd ht.symm (by simp [hne])
      | cons c t =>
        have hocc' : occursAt t old i' := occursAt_cons.mp hocc
        have huni' : ∀ j, occursAt t old j → j = i' := by
          intro j hj
          have := huni (j + 1) (occursAt_cons.mpr hj)
          omega
        show c :: pyReplaceFuel fuel t old new =
          List.take (i' + 1) (c :: t) ++ new ++ List.drop (i' + 1 + old.length) (c :: t)
        rw [ih t i' (by simpa using hlen) hocc' huni']
        simp [List.take_succ_cons, List.drop_succ_cons, Nat.succ_add]

/-! ## Lemmas about the script embeddings -/

theorem exportAnchor_ne_nil : exportAnchor ≠ [] := by decide

theorem startMarker_ne_nil : startMarker ≠ [] := by decide

theorem endMarker_ne_nil : endMarker ≠ [] := by decide

theorem newline_not_mem_exportAnchor : '\n' ∉ exportAnchor := by decide

/-- On a unique occurrence of the anchor, line 290 is a pure splice of
`payload ++ '\n'` in front of the occurrence. -/
theorem addNewContent_unique {D P : List Char} {i : Nat}
    (h : occursAt D exportAnchor i) (hu : ∀ j, occursAt D exportAnchor j → j = i) :
    addNewContent D P = D.take i ++ (P ++ ['\n']) ++ D.drop i := by
  unfold addNewContent pyReplace
  rw [pyReplaceFuel_unique_occ exportAnchor_ne_nil _ D.length D i (Nat.le_refl _) h hu]
  obtain ⟨t, ht⟩ := occursAt_ex.mp h
  have hdrop : D.drop (i + exportAnchor.length) = t := by
    have h2 : D.drop (i + exportAnchor.length) = (D.drop i).drop exportAnchor.length := by
      rw [List.drop_drop]
    rw [h2, ht, List.drop_left]
  rw [hdrop, ht]
  simp [List.append_assoc]

/-- The success branch of `update_training_section.py`, characterised by the
first occurrence of the start marker and the first occurrence of the end
marker at or after it. -/
theorem updateRun_found {D R : List Char} {s e : Nat}
    (h1 : occursAt D startMarker s) (h2 : ∀ j < s, ¬ occursAt D startMarker j)
    (h3 : occursAt D endMarker e) (h4 : s ≤ e)
    (h5 : ∀ j < e, s ≤ j → ¬ occursAt D endMarker j) :
    updateRun D R = (some (D.take s ++ R ++ trailingLit ++
      D.drop (e + endMarker.length)), true) := by
  have hf : pyFind D startMarker = (s : Nat) := pyFind_eq h1 h2
  have he : pyFindFrom D endMarker ((s : Nat) : Int) = (e : Nat) :=
    pyFindFrom_nat_eq h3 h4 (fun j hja hje => h5 j hje hja)
  unfold updateRun
  rw [hf, he, if_pos ⟨by omega, by omega⟩]
  simp [Int.toNat_natCast]

/-- No suffix of the start marker overlaps a prefix of the end marker: checked
character by character on the two concrete markers. -/
theorem marker_no_overlap : ∀ k, k < startMarker.length →
    endMarker.take (min endMarker.length (startMarker.length - k)) ≠
      (startMarker.drop k).take (min endMarker.length (startMarker.length - k)) := by
  decide

/-- An occurrence of the end marker at or after an occurrence of the start
marker in fact lies at or after the end of the start marker span. -/
theorem end_occ_not_in_start {D : List Char} {s e : Nat}
    (hs : occursAt D startMarker s) (he : occursAt D endMarker e)
    (hse : s ≤ e) : s + startMarker.length ≤ e := by
  by_contra hx
  push_neg at hx
  obtain ⟨t1, ht1⟩ := occursAt_ex.mp hs
  obtain ⟨t2, ht2⟩ := occursAt_ex.mp he
  have hks : e - s < startMarker.length := by omega
  have hdrop : D.drop e = startMarker.drop (e - s) ++ t1 := by
    have h2 : D.drop e = (D.drop s).drop (e - s) := by
      rw [List.drop_drop]
      congr 1
      omega
    rw [h2, ht1, List.drop_append_eq_append_drop,
      Nat.sub_eq_zero_of_le (Nat.le_of_lt hks), List.drop_zero]
  have heq : endMarker ++ t2 = startMarker.drop (e - s) ++ t1 := by
    rw [← ht2, hdrop]
  have hm1 : min endMarker.length (startMarker.length - (e - s)) ≤ endMarker.length :=
    Nat.min_le_left _ _
  have hm2 : min endMarker.length (startMarker.length - (e - s)) ≤
      (startMarker.drop (e - s)).length := by
    rw [List.length_drop]
    exact Nat.min_le_right _ _
  have htake := congrArg (List.take (min endMarker.length (startMarker.length - (e - s)))) heq
  rw [List.take_append_eq_append_take, List.take_append_eq_append_take,
    Nat.sub_eq_zero_of_le hm1, Nat.sub_eq_zero_of_le hm2, List.take_zero, List.take_zero,
    List.append_nil, List.append_nil] at htake
  exact marker_no_overlap (e - s) hks htake

/-- If the full pattern matches at no offset, `re.search` fails. -/
theorem fixSearch_none {D : List Char} (h : ∀ i, fixMatchAt (D.drop i) = none) :
    fixSearch D = none := by
  induction D with
  | nil =>
    unfold fixSearch
    rw [show fixMatchAt [] = none from h 0]
    rfl
  | cons c t ih =>
    unfold fixSearch
    rw [show fixMatchAt (c :: t) = none from h 0,
      ih (fun i => h (i + 1))]
    rfl

/-- The pattern cannot match a suffix shorter than its leading literal. -/
theorem fixMatchAt_short {s : List Char} (h : s.length < fixLit1.length) :
    fixMatchAt s = none := by
  unfold fixMatchAt consumeLit
  have hb : fixLit1.isPrefixOf s = false := by
    cases hb : fixLit1.isPrefixOf s
    · rfl
    · obtain ⟨t, ht⟩ := (isPrefixOf_iff_ex _ _).mp hb
      have := congrArg List.length ht
      rw [List.length_append] at this
      omega
  rw [hb]
  rfl

/-! ## Claims -/

/-- C1, counterexample: with the anchor occurring twice (first occurrence at
offset 0), line 290 does not return `document[0:0] ++ inserted ++ document[0:]`
— CPython `str.replace` splices the insertion at every occurrence, not only at
the first one. -/
theorem anchor_insert_not_pointwise_cex :
    pyFind twiceDoc exportAnchor = 0 ∧ occursAt twiceDoc exportAnchor 0 ∧
      addNewContent twiceDoc "X".data ≠
        twiceDoc.take 0 ++ ("X".data ++ ['\n']) ++ twiceDoc.drop 0 := by
  decide

/-- C1, amended: when the anchor occurs exactly once, at offset `i`, the
anchor-insert operation returns `document[0:i] ++ inserted ++ document[i:]`,
where the inserted text is the payload followed by `'\n'`; everything at and
after `i`, the marker included, is preserved verbatim. -/
theorem anchor_insert_unique_splice (D P : List Char) (i : Nat)
    (h : occursAt D exportAnchor i) (hc : countOcc D exportAnchor = 1) :
    addNewContent D P = D.take i ++ (P ++ ['\n']) ++ D.drop i :=
  addNewContent_unique h (countOcc_unique exportAnchor_ne_nil hc h)

/-- C1, witness: the amended claim evaluated on a concrete document with a
unique anchor occurrence at offset 4. -/
theorem anchor_insert_unique_splice_witness :
    addNewContent uniqueDoc "Q".data =
      uniqueDoc.take 4 ++ ("Q".data ++ ['\n']) ++ uniqueDoc.drop 4 :=
  anchor_insert_unique_splice uniqueDoc "Q".data 4 (by decide) (by decide)

/-- C5: a document in which the required anchor, start marker, end marker, or
regex pattern has zero occurrences sends each modifying script into its
failure branch: no success message, no write, and the file content is
unchanged. -/
theorem missing_region_no_write (D P : List Char) :
    ((∀ i, ¬ occursAt D exportAnchor i) →
      addRun D P = (none, false) ∧ finalFile D (addRun D P).1 = D) ∧
    ((∀ i, ¬ occursAt D startMarker i) →
      updateRun D P = (none, false) ∧ finalFile D (updateRun D P).1 = D) ∧
    ((∀ i, ¬ occursAt D endMarker i) →
      updateRun D P = (none, false) ∧ finalFile D (updateRun D P).1 = D) ∧
    ((∀ i, fixMatchAt (D.drop i) = none) →
      (fixRun D P).1 = none ∧ (fixRun D P).2 ≠ FixMsg.replaced ∧
        finalFile D (fixRun D P).1 = D) := by
  refine ⟨?_, ?_, ?_, ?_⟩
  · intro h
    have hc : pyContains D exportAnchor = false := by
      cases hb : pyContains D exportAnchor
      · rfl
      · obtain ⟨i, hi⟩ := pyContains_iff.mp hb
        exact absurd hi (h i)
    simp [addRun, hc, finalFile]
  · intro h
    have hf : pyFind D startMarker = -1 := pyFindFrom_none h 0
    simp [updateRun, hf, finalFile]
  · intro h
    have he : ∀ st, pyFindFrom D endMarker st = -1 := pyFindFrom_none h
    simp [updateRun, he, finalFile]
  · intro h
    have hs : fixSearch D = none := fixSearch_none h
    have h1 : (fixRun D P).1 = none := by
      unfold fixRun
      rw [hs]
    refine ⟨h1, ?_, by rw [show finalFile D (fixRun D P).1 = (fixRun D P).1.getD D from rfl, h1]; rfl⟩
    unfold fixRun
    rw [hs]
    dsimp only
    split <;> simp

/-- C5, witness: on the document `hello`, which contains none of the needles,
all three modifying scripts fail and leave the file unchanged. -/
theorem missing_region_no_write_witness :
    (addRun missDoc [] = (none, false) ∧ finalFile missDoc (addRun missDoc []).1 = missDoc) ∧
    (updateRun missDoc [] = (none, false) ∧ finalFile missDoc (updateRun missDoc []).1 = missDoc) ∧
    ((fixRun missDoc []).1 = none ∧ (fixRun missDoc []).2 ≠ FixMsg.replaced ∧
      finalFile missDoc (fixRun missDoc []).1 = missDoc) := by
  have h := missing_region_no_write missDoc []
  refine ⟨h.1 (no_occ_of_longer (by decide)), h.2.1 (no_occ_of_longer (by decide)),
    h.2.2.2 ?_⟩
  intro i
  apply fixMatchAt_short
  have h2 : (missDoc.drop i).length ≤ missDoc.length := by
    rw [List.length_drop]
    omega
  have h3 : missDoc.length < fixLit1.length := by decide
  omega

/-- C6: the read-only locate operation of `check_parser.py` never mutates its
input: for every document, whether or not the pattern matches, no write occurs
and the file content stays identical to the original. -/
theorem locate_only_no_mutation (D : List Char) :
    (checkRun D).2 = none ∧ finalFile D (checkRun D).2 = D :=
  ⟨rfl, rfl⟩

/-- C9: when the primary regex of `fix_parser.py` fails to match, the fallback
search for `const parseWeaknessesFromUnified` is diagnostic only — it decides
which message is printed and nothing else; the file is not written even when
the fallback needle is present. -/
theorem fix_fallback_diagnostic_only (D N : List Char) (h : fixSearch D = none) :
    (fixRun D N).1 = none ∧ (fixRun D N).2 ≠ FixMsg.replaced ∧
      ((fixRun D N).2 = FixMsg.foundDeclOnly ↔ ∃ i, occursAt D fixSimple i) := by
  unfold fixRun
  rw [h]
  cases hb : pyContains D fixSimple with
  | true =>
    refine ⟨rfl, by simp, ?_⟩
    constructor
    · intro _
      exact pyContains_iff.mp hb
    · intro _
      rfl
  | false =>
    refine ⟨rfl, by simp, ?_⟩
    constructor
    · intro hx
      simp at hx
    · intro hx
      rw [← pyContains_iff] at hx
      rw [hb] at hx
      cases hx

/-- C9, witness: a document consisting of the fallback needle alone does not
match the primary pattern; the script writes nothing and reports the
declaration-found diagnostic condition via the fallback search. -/
theorem fix_fallback_diagnostic_only_witness :
    (fixRun fixSimple []).1 = none ∧ (fixRun fixSimple []).2 ≠ FixMsg.replaced ∧
      ((fixRun fixSimple []).2 = FixMsg.foundDeclOnly ↔ ∃ i, occursAt fixSimple fixSimple i) :=
  fix_fallback_diagnostic_only fixSimple [] (by decide)

/-- C10: whenever the write branch of `update_training_section.py` is taken,
the start index is non-negative and at most the end index, so the slices
partition the document around a non-negative-length replaced span. -/
theorem bracket_write_indices_ordered (D R out : List Char)
    (h : (updateRun D R).1 = some out) :
    0 ≤ pyFind D startMarker ∧
      pyFind D startMarker ≤ pyFindFrom D endMarker (pyFind D startMarker) := by
  by_cases hc : pyFind D startMarker ≠ -1 ∧
      pyFindFrom D endMarker (pyFind D startMarker) ≠ -1
  · have h0 : 0 ≤ pyFind D startMarker := by
      rcases pyFindFrom_cases D startMarker 0 with hh | ⟨r, hr⟩
      · exact absurd hh hc.1
      · show (0 : Int) ≤ pyFindFrom D startMarker 0
        rw [hr]
        exact Int.natCast_nonneg r
    exact ⟨h0, pyFindFrom_ge h0 hc.2⟩
  · unfold updateRun at h
    rw [if_neg hc] at h
    cases h

/-- C10, witness: the ordering evaluated on a concrete document containing
both markers (start at offset 1, end at offset 88). -/
theorem bracket_write_indices_ordered_witness :
    0 ≤ pyFind bracketDoc startMarker ∧
      pyFind bracketDoc startMarker ≤
        pyFindFrom bracketDoc endMarker (pyFind bracketDoc startMarker) :=
  bracket_write_indices_ordered bracketDoc "R".data
    (bracketDoc.take 1 ++ "R".data ++ trailingLit ++
      bracketDoc.drop (88 + endMarker.length))
    (by decide)

/-- C2, counterexample: on a concrete document with the start marker first
found at offset 1 and the end marker first found from there at offset 88, the
written document is not `document[0:1] ++ R ++ document[88+len:]` — the script
splices a fixed extra literal between the replacement payload and the tail. -/
theorem bracket_replace_formula_cex :
    pyFind bracketDoc startMarker = 1 ∧ pyFindFrom bracketDoc endMarker 1 = 88 ∧
      (updateRun bracketDoc "R".data).1 ≠
        some (bracketDoc.take 1 ++ "R".data ++
          bracketDoc.drop (88 + endMarker.length)) := by
  decide

/-- C2, amended: on the first occurrence `s` of the start marker and the first
occurrence `e` of the end marker at or after it, the bracket-replace operation
returns `document[0:s] ++ (R ++ L) ++ document[e+len:]`, where `L` is the
fixed trailing literal of line 21 that the script appends after the
replacement payload `R`. -/
theorem bracket_replace_success_form (D R : List Char) (s e : Nat)
    (h1 : occursAt D startMarker s) (h2 : ∀ j < s, ¬ occursAt D startMarker j)
    (h3 : occursAt D endMarker e) (h4 : s ≤ e)
    (h5 : ∀ j < e, s ≤ j → ¬ occursAt D endMarker j) :
    updateRun D R = (some (D.take s ++ (R ++ trailingLit) ++
      D.drop (e + endMarker.length)), true) := by
  rw [updateRun_found h1 h2 h3 h4 h5]
  simp [List.append_assoc]

/-- C2, witness: the amended success form evaluated on the concrete bracket
document. -/
theorem bracket_replace_success_form_witness :
    updateRun bracketDoc "R".data = (some (bracketDoc.take 1 ++ ("R".data ++ trailingLit) ++
      bracketDoc.drop (88 + endMarker.length)), true) :=
  bracket_replace_success_form bracketDoc "R".data 1 88 (by decide) (by decide)
    (by decide) (by decide) (by decide)

/-- C3, counterexample: on the concrete bracket document (length 160, markers
found at 1 and 88, payload length 1) the output length is 58, not the
`len(D) - (end_offset_plus_len - start_offset) + len(R) = 3` the claim
computes. -/
theorem bracket_replace_length_cex :
    ((updateRun bracketDoc "R".data).1).map (fun l => (l.length : Int)) = some 58 ∧
      ¬ ((58 : Int) = (bracketDoc.length : Int) -
        (((88 : Int) + (endMarker.length : Int)) - 1) + ("R".data.length : Int)) ∧
      pyFind bracketDoc startMarker = 1 ∧ pyFindFrom bracketDoc endMarker 1 = 88 := by
  decide

/-- C3, amended: the output length is
`len(D) - (end_offset_plus_len - start_offset) + len(R) + len(L)` where `L`
is the fixed 55-character literal of line 21. -/
theorem bracket_replace_length (D R : List Char) (s e : Nat)
    (h1 : occursAt D startMarker s) (h2 : ∀ j < s, ¬ occursAt D startMarker j)
    (h3 : occursAt D endMarker e) (h4 : s ≤ e)
    (h5 : ∀ j < e, s ≤ j → ¬ occursAt D endMarker j) :
    ((updateRun D R).1).map (fun l => (l.length : Int)) =
      some ((D.length : Int) - (((e : Int) + (endMarker.length : Int)) - (s : Int)) +
        (R.length : Int) + (trailingLit.length : Int)) := by
  rw [updateRun_found h1 h2 h3 h4 h5]
  have hsl := occursAt_len startMarker_ne_nil h1
  have hel := occursAt_len endMarker_ne_nil h3
  simp only [Option.map_some', List.length_append, List.length_take, List.length_drop]
  congr 1
  have hs : min s D.length = s := Nat.min_eq_left (by omega)
  rw [hs]
  omega

/-- C3, witness: the amended length equation evaluated on the concrete
bracket document. -/
theorem bracket_replace_length_witness :
    ((updateRun bracketDoc "R".data).1).map (fun l => (l.length : Int)) =
      some ((bracketDoc.length : Int) -
        (((88 : Nat) : Int) + (endMarker.length : Int) - ((1 : Nat) : Int)) +
        ("R".data.length : Int) + (trailingLit.length : Int)) :=
  bracket_replace_length bracketDoc "R".data 1 88 (by decide) (by decide)
    (by decide) (by decide) (by decide)

/-- C4: when the start marker is first found at `s` and the end-marker search
from `s` succeeds at `e`, then `e` lies at or after the offset immediately
following the full start-marker match, `e` is an occurrence of the end marker,
and no occurrence of the end marker begins between that offset and `e`.  (The
code searches from `s` itself, but no end-marker occurrence can overlap the
start-marker span, by `marker_no_overlap`.) -/
theorem bracket_end_search_after_start (D : List Char) (s e : Nat)
    (h1 : pyFind D startMarker = ((s : Nat) : Int))
    (h2 : pyFindFrom D endMarker ((s : Nat) : Int) = ((e : Nat) : Int)) :
    s + startMarker.length ≤ e ∧ occursAt D endMarker e ∧
      ∀ j, s + startMarker.length ≤ j → j < e → ¬ occursAt D endMarker j := by
  obtain ⟨hs, _⟩ := pyFind_inv h1
  obtain ⟨he, hse, hmin⟩ := pyFindFrom_nat_inv h2
  have hge := end_occ_not_in_start hs he hse
  exact ⟨hge, he, fun j hj1 hj2 => hmin j (by omega) hj2⟩

/-- C4, witness: the end-marker selection property evaluated on the concrete
bracket document (start at 1, end at 88, and 1 + 84 ≤ 88). -/
theorem bracket_end_search_after_start_witness :
    1 + startMarker.length ≤ 88 ∧ occursAt bracketDoc endMarker 88 ∧
      ∀ j, 1 + startMarker.length ≤ j → j < 88 → ¬ occursAt bracketDoc endMarker j :=
  bracket_end_search_after_start bracketDoc 1 88 (by decide) (by decide)

/-- C8, counterexample: the literal appended after the replacement is not the
end marker (it lacks the first end-marker line), so the output is not
`document[0:start_idx] ++ R ++ document[end_idx:]`. -/
theorem bracket_end_marker_retention_cex :
    trailingLit ≠ endMarker ∧
      pyFind bracketDoc startMarker = 1 ∧ pyFindFrom bracketDoc endMarker 1 = 88 ∧
      (updateRun bracketDoc "R".data).1 ≠
        some (bracketDoc.take 1 ++ "R".data ++ bracketDoc.drop 88) := by
  decide

/-- C8, amended: the appended literal equals the end marker with its first 16
characters (its first line, a `</div>`) removed, so on success the script
produces exactly `document[0:start_idx] ++ R ++ document[end_idx + 16:]`: the
end-marker tail is retained after the replacement, its first line is consumed
together with everything from the start marker on, and the start marker
survives only if the replacement payload re-supplies it. -/
theorem bracket_end_marker_tail_retained (D R : List Char) (s e : Nat)
    (h1 : occursAt D startMarker s) (h2 : ∀ j < s, ¬ occursAt D startMarker j)
    (h3 : occursAt D endMarker e) (h4 : s ≤ e)
    (h5 : ∀ j < e, s ≤ j → ¬ occursAt D endMarker j) :
    trailingLit = endMarker.drop 16 ∧
      (updateRun D R).1 = some (D.take s ++ R ++ D.drop (e + 16)) := by
  refine ⟨by decide, ?_⟩
  rw [updateRun_found h1 h2 h3 h4 h5]
  obtain ⟨t, ht⟩ := occursAt_ex.mp h3
  have hd16 : D.drop (e + 16) = endMarker.drop 16 ++ t := by
    have h2' : D.drop (e + 16) = (D.drop e).drop 16 := by
      rw [List.drop_drop]
    rw [h2', ht, List.drop_append_eq_append_drop,
      Nat.sub_eq_zero_of_le (by decide), List.drop_zero]
  have hd71 : D.drop (e + endMarker.length) = t := by
    have h2' : D.drop (e + endMarker.length) = (D.drop e).drop endMarker.length := by
      rw [List.drop_drop]
    rw [h2', ht, List.drop_left]
  have hlit : trailingLit = endMarker.drop 16 := by decide
  rw [hd16, hd71, hlit]
  simp [List.append_assoc]

/-- C8, witness: the amended retention property evaluated on the concrete
bracket document. -/
theorem bracket_end_marker_tail_retained_witness :
    trailingLit = endMarker.drop 16 ∧
      (updateRun bracketDoc "R".data).1 =
        some (bracketDoc.take 1 ++ "R".data ++ bracketDoc.drop (88 + 16)) :=
  bracket_end_marker_tail_retained bracketDoc "R".data 1 88 (by decide) (by decide)
    (by decide) (by decide) (by decide)


/-- C7: the anchor-insert operation is deterministic — the run is a pure
function of the document — and not idempotent: applied to its own output
(which still contains the anchor, at offset `i + len(payload) + 1`), it
inserts a second copy of the inserted text before the anchor instead of
detecting the prior insertion.  The hypotheses mirror the fixed `new_code`
payload of the script: it starts with `'\n'` (so the inserted text both
starts and ends with `'\n'`) and does not itself contain the anchor. -/
theorem anchor_insert_det_second_copy (D P : List Char) (i : Nat)
    (h : occursAt D exportAnchor i) (hc : countOcc D exportAnchor = 1)
    (hP : P.head? = some '\n')
    (hPin : ∀ j, ¬ occursAt (P ++ ['\n']) exportAnchor j) :
    addRun D P = addRun D P ∧
    addNewContent (addNewContent D P) P =
      D.take i ++ (P ++ ['\n']) ++ (P ++ ['\n']) ++ D.drop i ∧
    addNewContent (addNewContent D P) P ≠ addNewContent D P := by
  have hu := countOcc_unique exportAnchor_ne_nil hc h
  have h1 : addNewContent D P = D.take i ++ (P ++ ['\n']) ++ D.drop i :=
    addNewContent_unique h hu
  have hilen : i + exportAnchor.length ≤ D.length := occursAt_len exportAnchor_ne_nil h
  have hAlen : (D.take i).length = i := by
    rw [List.length_take]
    omega
  obtain ⟨B, hB⟩ := occursAt_ex.mp h
  have hD1 : addNewContent D P = (D.take i ++ (P ++ ['\n'])) ++ (exportAnchor ++ B) := by
    rw [h1, hB]
  have hXlen : (D.take i ++ (P ++ ['\n'])).length = i + (P.length + 1) := by
    simp [List.length_append, hAlen]
  obtain ⟨P', hP'⟩ : ∃ P', P = '\n' :: P' := by
    cases P with
    | nil => cases hP
    | cons a t => exact ⟨t, by rw [Option.some.inj hP]⟩
  have hocc1 : occursAt (addNewContent D P) exportAnchor (i + (P.length + 1)) := by
    rw [hD1]
    have h2 : i + (P.length + 1) = (D.take i ++ (P ++ ['\n'])).length + 0 := by
      simp [hXlen]
    rw [h2]
    exact occursAt_append_right_iff.mpr (occursAt_ex.mpr ⟨B, by simp⟩)
  have hchar_i : (addNewContent D P)[i]? = some '\n' := by
    rw [hD1, List.getElem?_append_left (by rw [hXlen]; omega),
      List.getElem?_append_right (Nat.le_of_eq hAlen)]
    rw [hAlen, Nat.sub_self, hP']
    simp
  have hchar_last : (addNewContent D P)[i + P.length]? = some '\n' := by
    rw [hD1, List.getElem?_append_left (by rw [hXlen]; omega),
      List.getElem?_append_right (by rw [hAlen]; omega)]
    have h3 : i + P.length - (D.take i).length = P.length := by
      rw [hAlen]
      omega
    rw [h3, List.getElem?_append_right (Nat.le_refl _), Nat.sub_self]
    simp
  have hM : 0 < exportAnchor.length := by decide
  have huni1 : ∀ j, occursAt (addNewContent D P) exportAnchor j →
      j = i + (P.length + 1) := by
    intro j hj
    by_cases hc1 : j + exportAnchor.length ≤ i
    · exfalso
      have hDdecomp : D = D.take i ++ (exportAnchor ++ B) := by
        nth_rewrite 1 [← List.take_append_drop i D]
        rw [hB]
      have hocc_A : occursAt (D.take i) exportAnchor j := by
        apply occursAt_append_inner (Y := (P ++ ['\n']) ++ (exportAnchor ++ B))
          (by rw [hAlen]; omega)
        have h3 : (D.take i ++ (P ++ ['\n'])) ++ (exportAnchor ++ B) =
            D.take i ++ ((P ++ ['\n']) ++ (exportAnchor ++ B)) := by
          simp [List.append_assoc]
        rw [hD1, h3] at hj
        exact hj
      have h4 := occursAt_append_left (Y := exportAnchor ++ B) hocc_A
      rw [← hDdecomp] at h4
      have := hu j h4
      omega
    · by_cases hc2 : j < i
      · exfalso
        have hk : i - j < exportAnchor.length := by omega
        have h5 := occursAt_char hj hk
        have hji : j + (i - j) = i := by omega
        rw [hji, hchar_i] at h5
        exact newline_not_mem_exportAnchor (List.getElem?_mem h5.symm)
      · push_neg at hc2
        by_cases hc3 : j + exportAnchor.length ≤ i + (P.length + 1)
        · exfalso
          have h6 : j = (D.take i).length + (j - i) := by
            rw [hAlen]
            omega
          have hj' : occursAt ((P ++ ['\n']) ++ (exportAnchor ++ B)) exportAnchor (j - i) := by
            rw [hD1, List.append_assoc, h6] at hj
            exact occursAt_append_right_iff.mp hj
          have hlen7 : (j - i) + exportAnchor.length ≤ (P ++ ['\n']).length := by
            simp only [List.length_append, List.length_cons, List.length_nil]
            omega
          exact hPin _ (occursAt_append_inner hlen7 hj')
        · push_neg at hc3
          by_cases hc4 : j < i + (P.length + 1)
          · exfalso
            have hk : i + P.length - j < exportAnchor.length := by omega
            have h8 := occursAt_char hj hk
            have hji : j + (i + P.length - j) = i + P.length := by omega
            rw [hji, hchar_last] at h8
            exact newline_not_mem_exportAnchor (List.getElem?_mem h8.symm)
          · push_neg at hc4
            have h9 : j = (D.take i ++ (P ++ ['\n'])).length +
                (j - (i + (P.length + 1))) := by
              rw [hXlen]
              omega
            rw [hD1, h9] at hj
            have hmB := occursAt_append_right_iff.mp hj
            have hD' : occursAt D exportAnchor (i + (j - (i + (P.length + 1)))) := by
              apply occursAt_drop.mp
              rw [hB]
              exact hmB
            have := hu _ hD'
            omega
  have h2 : addNewContent (addNewContent D P) P =
      (addNewContent D P).take (i + (P.length + 1)) ++ (P ++ ['\n']) ++
        (addNewContent D P).drop (i + (P.length + 1)) :=
    addNewContent_unique hocc1 huni1
  have htake : (addNewContent D P).take (i + (P.length + 1)) =
      D.take i ++ (P ++ ['\n']) := by
    rw [hD1, ← hXlen, List.take_left]
  have hdrop2 : (addNewContent D P).drop (i + (P.length + 1)) = exportAnchor ++ B := by
    rw [hD1, ← hXlen, List.drop_left]
  refine ⟨rfl, ?_, ?_⟩
  · rw [h2, htake, hdrop2, ← hB]
  · rw [h2, htake, hdrop2, hD1]
    intro heq
    have hlen := congrArg List.length heq
    simp only [List.length_append, List.length_cons, List.length_nil] at hlen
    omega

/-- C7, witness: on a concrete document with a unique anchor occurrence at
offset 4 and the payload `\n`, the double application inserts two copies. -/
theorem anchor_insert_det_second_copy_witness :
    addRun uniqueDoc "\n".data = addRun uniqueDoc "\n".data ∧
    addNewContent (addNewContent uniqueDoc "\n".data) "\n".data =
      uniqueDoc.take 4 ++ ("\n".data ++ ['\n']) ++ ("\n".data ++ ['\n']) ++
        uniqueDoc.drop 4 ∧
    addNewContent (addNewContent uniqueDoc "\n".data) "\n".data ≠
      addNewContent uniqueDoc "\n".data :=
  anchor_insert_det_second_copy uniqueDoc "\n".data 4 (by decide) (by decide)
    (by decide) (no_occ_of_longer (by decide))
